import Mathlib

/-!
Verification of the schema-migration engine and user use case of the
`solecode` repository.  Go strings are modelled as lists of characters
(`Str`); Go string comparison is byte-lexicographic on UTF-8, which
coincides with lexicographic comparison of unicode code points, modelled
by `lexLe`.  The database is modelled by `DBState`: the sequence of
committed schema-changing SQL texts, the rows of the `migration_log`
table, and a logical clock standing for `applied_at`.  External failures
(SQL errors, insert errors, commit errors) are supplied by an oracle
`Env`; the UNIQUE constraint on `migration_log.version` is part of the
database model itself.
-/

namespace SoleMig

/-- Strings as lists of characters. -/
abbrev Str := List Char

/-- Go `s <= t` on strings (lexicographic). -/
def lexLe : Str → Str → Bool
  | [], _ => true
  | _ :: _, [] => false
  | a :: as, b :: bs => if a = b then lexLe as bs else decide (a < b)

theorem lexLe_refl : ∀ x : Str, lexLe x x = true
  | [] => rfl
  | a :: as => by simp [lexLe, lexLe_refl as]

theorem lexLe_total : ∀ x y : Str, lexLe x y || lexLe y x
  | [], _ => by simp [lexLe]
  | _ :: _, [] => by simp [lexLe]
  | a :: as, b :: bs => by
    by_cases hab : a = b
    · subst hab
      simpa [lexLe] using lexLe_total as bs
    · rcases lt_or_gt_of_ne hab with h | h
      · simp [lexLe, hab, (Ne.symm hab), h, not_lt_of_gt h]
      · simp [lexLe, hab, (Ne.symm hab), h, not_lt_of_gt h]

theorem lexLe_trans : ∀ x y z : Str,
    lexLe x y = true → lexLe y z = true → lexLe x z = true
  | [], _, _, _, _ => rfl
  | a :: as, [], _, h, _ => by simp [lexLe] at h
  | a :: as, b :: bs, [], _, h => by simp [lexLe] at h
  | a :: as, b :: bs, c :: cs, h1, h2 => by
    by_cases hab : a = b <;> by_cases hbc : b = c
    · subst hab; subst hbc
      simp only [lexLe, if_pos rfl] at h1 h2 ⊢
      exact lexLe_trans as bs cs h1 h2
    · subst hab
      simpa [lexLe, hbc] using h2
    · subst hbc
      simpa [lexLe, hab] using h1
    · simp only [lexLe, if_neg hab] at h1
      simp only [lexLe, if_neg hbc] at h2
      have hac : a < c := lt_trans (of_decide_eq_true h1) (of_decide_eq_true h2)
      simp [lexLe, ne_of_lt hac, hac]

theorem lexLe_antisymm : ∀ x y : Str,
    lexLe x y = true → lexLe y x = true → x = y
  | [], [], _, _ => rfl
  | [], _ :: _, _, h => by simp [lexLe] at h
  | _ :: _, [], h, _ => by simp [lexLe] at h
  | a :: as, b :: bs, h1, h2 => by
    by_cases hab : a = b
    · subst hab
      simp only [lexLe, if_pos rfl] at h1 h2
      rw [lexLe_antisymm as bs h1 h2]
    · simp only [lexLe, if_neg hab, if_neg (Ne.symm hab)] at h1 h2
      exact absurd (of_decide_eq_true h2) (not_lt_of_gt (of_decide_eq_true h1))

/-! ## Data model of the migration engine (cmd/app/cli/root.go) -/

/-- `type Migration struct` from root.go. -/
structure Migration where
  Version : Str
  Name : Str
  UpSQL : Str
  DownSQL : Str
deriving DecidableEq

/-- One row of the `migration_log` table; `applied_at` is modelled by a
logical clock (`appliedAt`), strictly increasing over inserts. -/
structure LogRow where
  version : Str
  name : Str
  direction : Str
  appliedAt : Nat
deriving DecidableEq

/-- The database state seen by the engine: committed schema-changing SQL
texts in execution order, the `migration_log` rows, and the clock. -/
structure DBState where
  schema : List Str
  log : List LogRow
  clock : Nat
deriving DecidableEq

/-- Fresh database right after `createMigrationLogTable`. -/
def emptyDB : DBState := ⟨[], [], 0⟩

/-- Rows produced by
`SELECT version FROM migration_log WHERE direction = 'up' ORDER BY applied_at ASC`. -/
def upRowsByTime (db : DBState) : List LogRow :=
  (db.log.filter (fun r => decide (r.direction = "up".data))).mergeSort
    (fun a b => decide (a.appliedAt ≤ b.appliedAt))

/-- `getAppliedMigrations` from root.go. -/
def getAppliedMigrations (db : DBState) : List Str :=
  (upRowsByTime db).map (fun r => r.version)

/-- Failure oracle: each external operation either succeeds (`none`) or
fails with a driver error text (`some`). -/
structure Env where
  execFails : Str → Option Str
  recordFails : Str → Option Str
  removeFails : Str → Option Str
  commitFails : Str → Option Str

/-- Environment in which no external operation fails. -/
def noFail : Env := ⟨fun _ => none, fun _ => none, fun _ => none, fun _ => none⟩

/-- Outcome of `recordMigration` (the INSERT into `migration_log`): the
oracle may fail it, and the UNIQUE constraint on `version` fails it
whenever a row with that version already exists. -/
def recordResult (env : Env) (db : DBState) (v : Str) : Option Str :=
  match env.recordFails v with
  | some e => some e
  | none =>
    if db.log.any (fun r => decide (r.version = v)) then
      some ("Duplicate entry".data)
    else none

/-- Result of one `migrateUp`/`migrateDown` run: final database state, the
SQL bodies passed to `tx.Exec` (attempted executions), the versions
reported as already applied, the versions for which a transaction was
begun, and the error (if any). -/
structure RunResult where
  db : DBState
  execs : List Str
  reported : List Str
  attempted : List Str
  err : Option Str
deriving DecidableEq

/-- Committing one up-migration: schema change plus its log row, together. -/
def commitUp (db : DBState) (m : Migration) : DBState :=
  { schema := db.schema ++ [m.UpSQL],
    log := db.log ++ [⟨m.Version, m.Name, "up".data, db.clock⟩],
    clock := db.clock + 1 }

/-- The loop body of `migrateUp`: `applied` is the appliedMap computed once
at the start of the run; each pending migration runs in its own
transaction (body, then log insert, then commit), and the first failure
rolls the transaction back and aborts the run. -/
def upGo (env : Env) (applied : List Str) : DBState → List Migration → RunResult
  | db, [] => ⟨db, [], [], [], none⟩
  | db, m :: rest =>
    if m.Version ∈ applied then
      let r := upGo env applied db rest
      { r with reported := m.Version :: r.reported }
    else
      match env.execFails m.UpSQL with
      | some e =>
        ⟨db, [m.UpSQL], [], [m.Version],
          some ("failed to execute migration ".data ++ m.Version ++ ": ".data ++ e)⟩
      | none =>
        match recordResult env db m.Version with
        | some e =>
          ⟨db, [m.UpSQL], [], [m.Version],
            some ("failed to record migration ".data ++ m.Version ++ ": ".data ++ e)⟩
        | none =>
          match env.commitFails m.Version with
          | some e =>
            ⟨db, [m.UpSQL], [], [m.Version],
              some ("failed to commit transaction: ".data ++ e)⟩
          | none =>
            let r := upGo env applied (commitUp db m) rest
            { r with execs := m.UpSQL :: r.execs, attempted := m.Version :: r.attempted }

/-- `migrateUp` from root.go. -/
def migrateUp (env : Env) (db : DBState) (ms : List Migration) : RunResult :=
  upGo env (getAppliedMigrations db) db ms

/-- Committing one rollback: the down body is executed and the version's
log rows are deleted (`DELETE FROM migration_log WHERE version = ?`),
in the same transaction. -/
def commitDown (db : DBState) (m : Migration) : DBState :=
  { schema := db.schema ++ [m.DownSQL],
    log := db.log.filter (fun r => decide (¬ r.version = m.Version)),
    clock := db.clock + 1 }

/-- The loop body of `migrateDown`: migrations whose version is not in
`applied` are skipped silently. -/
def downGo (env : Env) (applied : List Str) : DBState → List Migration → RunResult
  | db, [] => ⟨db, [], [], [], none⟩
  | db, m :: rest =>
    if m.Version ∈ applied then
      match env.execFails m.DownSQL with
      | some e =>
        ⟨db, [m.DownSQL], [], [m.Version],
          some ("failed to rollback migration ".data ++ m.Version ++ ": ".data ++ e)⟩
      | none =>
        match env.removeFails m.Version with
        | some e =>
          ⟨db, [m.DownSQL], [], [m.Version],
            some ("failed to remove migration record ".data ++ m.Version ++ ": ".data ++ e)⟩
        | none =>
          match env.commitFails m.Version with
          | some e =>
            ⟨db, [m.DownSQL], [], [m.Version],
              some ("failed to commit transaction: ".data ++ e)⟩
          | none =>
            let r := downGo env applied (commitDown db m) rest
            { r with execs := m.DownSQL :: r.execs, attempted := m.Version :: r.attempted }
    else downGo env applied db rest

/-- Ascending sort by version (`sort.Slice` with `Version < Version` in
`loadMigrations`). -/
def sortAsc (ms : List Migration) : List Migration :=
  ms.mergeSort (fun a b => lexLe a.Version b.Version)

/-- Descending sort by version (`sort.Slice` with `Version > Version` in
`migrateDown`). -/
def sortDesc (ms : List Migration) : List Migration :=
  ms.mergeSort (fun a b => lexLe b.Version a.Version)

/-- `migrateDown` from root.go: re-sorts descending, then rolls back each
applied migration in its own transaction. -/
def migrateDown (env : Env) (db : DBState) (ms : List Migration) : RunResult :=
  downGo env (getAppliedMigrations db) db (sortDesc ms)

/-- Well-formed database: every `migration_log` row has direction `up`
(this program only ever inserts direction `up`; rollbacks delete). -/
def WFdb (db : DBState) : Prop :=
  ∀ r ∈ db.log, r.direction = "up".data

/-! ## loadMigrations (discovery and parsing of migration files) -/

/-- Go `strings.Split` for a one-character separator. -/
def splitOnChar (sep : Char) : Str → List Str
  | [] => [[]]
  | c :: rest =>
    let r := splitOnChar sep rest
    if c = sep then [] :: r
    else
      match r with
      | [] => [[c]]
      | h :: t => (c :: h) :: t

/-- Go `strings.SplitN(s, sep, 2)` for a one-character separator, reported
as `none` when the separator does not occur (Go would return one part). -/
def splitFirst (sep : Char) : Str → Option (Str × Str)
  | [] => none
  | c :: rest =>
    if c = sep then some ([], rest)
    else (splitFirst sep rest).map (fun p => (c :: p.1, p.2))

/-- Go `strings.TrimSuffix`. -/
def trimSuffix (suf l : Str) : Str :=
  if suf.length ≤ l.length ∧ l.drop (l.length - suf.length) = suf then
    l.take (l.length - suf.length)
  else l

/-- Whether a file name is matched by the glob pattern `*.sql`. -/
def sqlSuffix (l : Str) : Bool :=
  decide (4 ≤ l.length ∧ l.drop (l.length - 4) = ".sql".data)

/-- The filename checks of the loop in `loadMigrations`: strip `.sql`,
split on `.` requiring exactly two parts, then split the base name at the
first `_` requiring two parts.  Returns `(version, name, direction)`;
`none` means the file is skipped. -/
def parseMigFileName (fname : Str) : Option (Str × Str × Str) :=
  match splitOnChar '.' (trimSuffix ".sql".data fname) with
  | [b, dir] =>
    match splitFirst '_' b with
    | some (v, n) => some (v, n, dir)
    | none => none
  | _ => none

/-- Value of the `migrationFiles` map: the up and down file contents. -/
structure UpDown where
  up : Str
  down : Str
deriving DecidableEq

/-- The `if direction == "up" / else if direction == "down"` update: any
other direction leaves both bodies untouched. -/
def setFile (d : UpDown) (dir content : Str) : UpDown :=
  if dir = "up".data then { d with up := content }
  else if dir = "down".data then { d with down := content }
  else d

/-- Insert one parsed file into the grouped map (modelled as an
association list in first-insertion order). -/
def insertFile : List (Str × UpDown) → Str → Str → Str → List (Str × UpDown)
  | [], key, dir, content => [(key, setFile ⟨[], []⟩ dir content)]
  | (k, d) :: rest, key, dir, content =>
    if k = key then (k, setFile d dir content) :: rest
    else (k, d) :: insertFile rest key dir content

/-- One step of the grouping loop of `loadMigrations`: a file failing the
name checks is skipped; a matched file is grouped under the key
`version ++ "_" ++ name`. -/
def collectStep (acc : List (Str × UpDown)) (f : Str × Str) : List (Str × UpDown) :=
  match parseMigFileName f.1 with
  | none => acc
  | some (v, n, dir) => insertFile acc (v ++ "_".data ++ n) dir f.2

/-- The grouping loop of `loadMigrations` over the globbed files
(filename, content). -/
def collectFiles (files : List (Str × Str)) : List (Str × UpDown) :=
  files.foldl collectStep []

/-- Converting the grouped map back to `Migration` values: the key is
re-split at its first `_` (the impossible keyless case mirrors Go's
out-of-range panic with a harmless default; every key built by
`collectFiles` contains `_`). -/
def toMigrations (entries : List (Str × UpDown)) : List Migration :=
  entries.map (fun e =>
    match splitFirst '_' e.1 with
    | some (v, n) => ⟨v, n, e.2.up, e.2.down⟩
    | none => ⟨e.1, [], e.2.up, e.2.down⟩)

/-- `filepath.Glob` sorts its matches by name. -/
def sortFiles (files : List (Str × Str)) : List (Str × Str) :=
  files.mergeSort (fun a b => lexLe a.1 b.1)

/-- `loadMigrations` from root.go, as a function of the directory listing
(base filename, content): glob `*.sql` (sorted), group by
`{version}_{name}`, convert, and sort ascending by version. -/
def loadMigrationsFrom (files : List (Str × Str)) : List Migration :=
  sortAsc (toMigrations (collectFiles (sortFiles (files.filter (fun f => sqlSuffix f.1)))))

/-! ## createMigration (migrate-create) -/

/-- A wall-clock instant, as the fields `time.Now().Format` reads. -/
structure DateTime where
  year : Nat
  month : Nat
  day : Nat
  hour : Nat
  minute : Nat
  second : Nat
deriving DecidableEq

/-- Decimal digit character. -/
def digitChar (n : Nat) : Char := Char.ofNat (48 + n % 10)

/-- Fixed-width zero-padded decimal rendering (width `w`). -/
def padNat : Nat → Nat → Str
  | 0, _ => []
  | w + 1, n => padNat w (n / 10) ++ [digitChar n]

/-- Go's `Format("20060102150405")`: fixed-width `YYYYMMDDhhmmss`. -/
def formatStamp (t : DateTime) : Str :=
  padNat 4 t.year ++ padNat 2 t.month ++ padNat 2 t.day ++
    padNat 2 t.hour ++ padNat 2 t.minute ++ padNat 2 t.second

/-- The two files written by `createMigration`: names and contents. -/
structure CreatedFiles where
  upFile : Str
  downFile : Str
  upContent : Str
  downContent : Str
deriving DecidableEq

/-- `createMigration` from root.go, as a function of the current time and
the migration name. -/
def createMigration (t : DateTime) (name : Str) : CreatedFiles :=
  let stamp := formatStamp t
  { upFile := stamp ++ "_".data ++ name ++ ".up.sql".data,
    downFile := stamp ++ "_".data ++ name ++ ".down.sql".data,
    upContent := "-- Migration: ".data ++ name ++ "\n-- Version: ".data ++ stamp ++
      "\n-- Description: ".data ++ name ++ "\n\n".data,
    downContent := "-- Rollback: ".data ++ name ++ "\n-- Version: ".data ++ stamp ++
      "\n\n".data }

/-! ## User use case (GetUser / UpdateUser / DeleteUser guards) -/

/-- `entities.User` (the fields the use case touches). -/
structure User where
  id : Int
  name : Str
  email : Str
deriving DecidableEq

/-- One repository or cache access performed by the use case. -/
inductive Call where
  | cacheGet (key : Str)
  | cacheSet (key : Str)
  | cacheDelete (key : Str)
  | repoGetByID (id : Int)
  | repoGetByEmail (email : Str)
  | repoUpdate (u : User)
  | repoDelete (id : Int)
deriving DecidableEq

/-- Responses of the repository and the cache. -/
structure UCEnv where
  cacheGetJSON : Str → Option User
  repoGetByID : Int → Except Str User
  repoGetByEmail : Str → Except Str (Option User)
  repoUpdate : User → Option Str
  repoDelete : Int → Option Str

/-- `fmt.Sprintf("user:%d", id)`. -/
def userKey (id : Int) : Str := "user:".data ++ (toString id).data

/-- ASCII lowercase mapping (model of `strings.ToLower`). -/
def toLowerStr (x : Str) : Str := x.map Char.toLower

/-- Whitespace test used by the model of `strings.TrimSpace`. -/
def isSpaceChar (c : Char) : Bool :=
  c = ' ' || c = '\t' || c = '\n' || c = '\r'

/-- Model of `strings.TrimSpace`. -/
def trimSpace (x : Str) : Str :=
  ((x.dropWhile isSpaceChar).reverse.dropWhile isSpaceChar).reverse

/-- `GetUser` from the user use case: guard, cache-aside read, repository
fallback, cache fill.  The second component records every repository or
cache access, in order. -/
def GetUser (env : UCEnv) (id : Int) : Except Str User × List Call :=
  if id ≤ 0 then (.error "invalid user ID".data, [])
  else
    let key := userKey id
    match env.cacheGetJSON key with
    | some u =>
      if u.id ≠ 0 then (.ok u, [.cacheGet key])
      else
        match env.repoGetByID id with
        | .error e => (.error e, [.cacheGet key, .repoGetByID id])
        | .ok u2 => (.ok u2, [.cacheGet key, .repoGetByID id, .cacheSet key])
    | none =>
      match env.repoGetByID id with
      | .error e => (.error e, [.cacheGet key, .repoGetByID id])
      | .ok u2 => (.ok u2, [.cacheGet key, .repoGetByID id, .cacheSet key])

/-- `UpdateUser` from the user use case: guard, load, email-uniqueness
check when the email changes, update, cache invalidation. -/
def UpdateUser (env : UCEnv) (id : Int) (name email : Str) :
    Except Str User × List Call :=
  if id ≤ 0 then (.error "invalid user ID".data, [])
  else
    match env.repoGetByID id with
    | .error e => (.error e, [.repoGetByID id])
    | .ok user =>
      let checkCalls :=
        if user.email ≠ toLowerStr email then [Call.repoGetByEmail email] else []
      let checked : Option (Except Str User × List Call) :=
        if user.email ≠ toLowerStr email then
          match env.repoGetByEmail email with
          | .error e =>
            some (.error ("failed to check email existence: ".data ++ e),
              [.repoGetByID id, .repoGetByEmail email])
          | .ok (some ex) =>
            if ex.id ≠ id then
              some (.error "email already exists".data,
                [.repoGetByID id, .repoGetByEmail email])
            else none
          | .ok none => none
        else none
      match checked with
      | some out => out
      | none =>
        let u2 : User :=
          { user with name := trimSpace name, email := toLowerStr (trimSpace email) }
        match env.repoUpdate u2 with
        | some e => (.error e, [.repoGetByID id] ++ checkCalls ++ [.repoUpdate u2])
        | none =>
          (.ok u2,
            [.repoGetByID id] ++ checkCalls ++ [.repoUpdate u2, .cacheDelete (userKey id)])

/-- `DeleteUser` from the user use case: guard, delete, cache
invalidation. -/
def DeleteUser (env : UCEnv) (id : Int) : Except Str Unit × List Call :=
  if id ≤ 0 then (.error "invalid user ID".data, [])
  else
    match env.repoDelete id with
    | some e => (.error e, [.repoDelete id])
    | none => (.ok (), [.repoDelete id, .cacheDelete (userKey id)])

/-! ## Execution lemmas for the migration engine -/

theorem mem_getApplied {db : DBState} {v : Str} :
    v ∈ getAppliedMigrations db ↔
      ∃ r ∈ db.log, r.direction = "up".data ∧ r.version = v := by
  simp only [getAppliedMigrations, upRowsByTime, List.mem_map, List.mem_mergeSort,
    List.mem_filter, decide_eq_true_eq]
  constructor
  · rintro ⟨r, ⟨hr, hd⟩, hv⟩
    exact ⟨r, hr, hd, hv⟩
  · rintro ⟨r, hr, hd, hv⟩
    exact ⟨r, ⟨hr, hd⟩, hv⟩

/-- The log rows inserted when committing a list of migrations starting at
clock `c`. -/
def logRowsFrom (c : Nat) : List Migration → List LogRow
  | [] => []
  | m :: rest => ⟨m.Version, m.Name, "up".data, c⟩ :: logRowsFrom (c + 1) rest

/-- Sequentially committing a list of up-migrations. -/
def applyUpAll (db : DBState) : List Migration → DBState
  | [] => db
  | m :: rest => applyUpAll (commitUp db m) rest

theorem applyUpAll_spec : ∀ (ms : List Migration) (db : DBState),
    applyUpAll db ms =
      ⟨db.schema ++ ms.map Migration.UpSQL, db.log ++ logRowsFrom db.clock ms,
        db.clock + ms.length⟩
  | [], db => by simp [applyUpAll, logRowsFrom]
  | m :: rest, db => by
    simp only [applyUpAll, applyUpAll_spec rest, commitUp, logRowsFrom, List.map_cons,
      List.length_cons]
    simp only [DBState.mk.injEq]
    refine ⟨by simp, by simp, by omega⟩

/-- The loop of `migrateUp` when nothing fails: every pending migration is
committed in order, every applied one is reported, and the run succeeds. -/
theorem upGo_success (env : Env) (applied : List Str) :
    ∀ (ms : List Migration) (db : DBState),
    (∀ m ∈ ms, m.Version ∉ applied →
      env.execFails m.UpSQL = none ∧ env.recordFails m.Version = none ∧
        env.commitFails m.Version = none) →
    (∀ m ∈ ms, m.Version ∉ applied → ∀ r ∈ db.log, r.version ≠ m.Version) →
    ((ms.filter (fun m => decide (m.Version ∉ applied))).map Migration.Version).Nodup →
    upGo env applied db ms =
      ⟨applyUpAll db (ms.filter (fun m => decide (m.Version ∉ applied))),
        (ms.filter (fun m => decide (m.Version ∉ applied))).map Migration.UpSQL,
        (ms.filter (fun m => decide (m.Version ∈ applied))).map Migration.Version,
        (ms.filter (fun m => decide (m.Version ∉ applied))).map Migration.Version,
        none⟩
  | [], db, _, _, _ => by simp [upGo, applyUpAll]
  | m :: rest, db, hok, hfresh, hnd => by
    by_cases hm : m.Version ∈ applied
    · have ih := upGo_success env applied rest db
        (fun x hx => hok x (List.mem_cons_of_mem _ hx))
        (fun x hx => hfresh x (List.mem_cons_of_mem _ hx))
        (by simpa [List.filter_cons, hm] using hnd)
      simp [upGo, hm, ih, List.filter_cons]
    · obtain ⟨he, hr, hc⟩ := hok m (List.mem_cons_self _ _) hm
      have hnd2 : m.Version ∉ (rest.filter
          (fun x => decide (x.Version ∉ applied))).map Migration.Version ∧
          ((rest.filter (fun x => decide (x.Version ∉ applied))).map
            Migration.Version).Nodup := by
        simpa [List.filter_cons, hm] using hnd
      have hany : (db.log.any fun r => decide (r.version = m.Version)) = false := by
        simp only [List.any_eq_false, decide_eq_true_eq]
        exact fun r hrr => hfresh m (List.mem_cons_self _ _) hm r hrr
      have hrec : recordResult env db m.Version = none := by
        simp [recordResult, hr, hany]
      have hfresh2 : ∀ x ∈ rest, x.Version ∉ applied →
          ∀ r ∈ (commitUp db m).log, r.version ≠ x.Version := by
        intro x hx hxa r hrr
        simp only [commitUp, List.mem_append, List.mem_singleton] at hrr
        rcases hrr with hrr | hrr
        · exact hfresh x (List.mem_cons_of_mem _ hx) hxa r hrr
        · subst hrr
          intro hcontra
          have hmx : m.Version = x.Version := hcontra
          apply hnd2.1
          rw [hmx]
          exact List.mem_map_of_mem Migration.Version
            (List.mem_filter.mpr ⟨hx, by simpa using hxa⟩)
      have ih := upGo_success env applied rest (commitUp db m)
        (fun x hx => hok x (List.mem_cons_of_mem _ hx)) hfresh2 hnd2.2
      simp [upGo, hm, he, hrec, hc, ih, List.filter_cons, applyUpAll]

/-- The loop of `migrateUp` when the pending migrations decompose as
`pre ++ mk :: post`, everything in `pre` succeeds, and `mk` fails on its
SQL body or on its log insert: `pre` is committed in full, `mk` is rolled
back leaving no trace, nothing in `post` is attempted, and the run stops
with an error naming `mk`'s version. -/
theorem upGo_fail (env : Env) (applied : List Str) :
    ∀ (ms : List Migration) (db : DBState) (pre : List Migration) (mk : Migration)
      (post : List Migration),
    ms.filter (fun m => decide (m.Version ∉ applied)) = pre ++ mk :: post →
    (∀ m ∈ pre, env.execFails m.UpSQL = none ∧ env.recordFails m.Version = none ∧
      env.commitFails m.Version = none) →
    ((∃ e, env.execFails mk.UpSQL = some e) ∨
      (env.execFails mk.UpSQL = none ∧ ∃ e, env.recordFails mk.Version = some e)) →
    (∀ m ∈ pre ++ [mk], ∀ r ∈ db.log, r.version ≠ m.Version) →
    ((pre ++ [mk]).map Migration.Version).Nodup →
    ∃ rep msg, upGo env applied db ms =
      ⟨applyUpAll db pre, pre.map Migration.UpSQL ++ [mk.UpSQL], rep,
        pre.map Migration.Version ++ [mk.Version], some msg⟩ ∧
      ((∃ e, msg = "failed to execute migration ".data ++ mk.Version ++ ": ".data ++ e) ∨
        (∃ e, msg = "failed to record migration ".data ++ mk.Version ++ ": ".data ++ e))
  | [], db, pre, mk, post, hsplit, _, _, _, _ => by
    cases pre <;> simp at hsplit
  | m :: rest, db, pre, mk, post, hsplit, hok, hfail, hfresh, hnd => by
    by_cases hm : m.Version ∈ applied
    · rw [List.filter_cons_of_neg (by simpa using hm)] at hsplit
      obtain ⟨rep, msg, heq, hcase⟩ :=
        upGo_fail env applied rest db pre mk post hsplit hok hfail hfresh hnd
      refine ⟨m.Version :: rep, msg, ?_, hcase⟩
      simp [upGo, hm, heq]
    · rw [List.filter_cons_of_pos (by simpa using hm)] at hsplit
      cases pre with
      | nil =>
        simp only [List.nil_append, List.cons.injEq] at hsplit
        obtain ⟨rfl, _⟩ := hsplit
        rcases hfail with ⟨e, he⟩ | ⟨he, e, hr⟩
        · refine ⟨[], _, ?_, Or.inl ⟨e, rfl⟩⟩
          simp [upGo, hm, he, applyUpAll]
        · refine ⟨[], _, ?_, Or.inr ⟨e, rfl⟩⟩
          have hrec : recordResult env db m.Version = some e := by
            simp [recordResult, hr]
          simp [upGo, hm, he, hrec, applyUpAll]
      | cons p pre2 =>
        simp only [List.cons_append, List.cons.injEq] at hsplit
        obtain ⟨rfl, hsplit2⟩ := hsplit
        obtain ⟨he, hr, hc⟩ := hok m (List.mem_cons_self _ _)
        have hnd1 : (m.Version :: (pre2 ++ [mk]).map Migration.Version).Nodup := by
          simpa only [List.cons_append, List.map_cons] using hnd
        have hndtail : ((pre2 ++ [mk]).map Migration.Version).Nodup :=
          (List.nodup_cons.mp hnd1).2
        have hmhead : m.Version ∉ (pre2 ++ [mk]).map Migration.Version :=
          (List.nodup_cons.mp hnd1).1
        have hany : (db.log.any fun r => decide (r.version = m.Version)) = false := by
          simp only [List.any_eq_false, decide_eq_true_eq]
          exact fun r hrr =>
            hfresh m (List.mem_cons_self _ _) r hrr
        have hrec : recordResult env db m.Version = none := by
          simp [recordResult, hr, hany]
        have hfresh2 : ∀ x ∈ pre2 ++ [mk], ∀ r ∈ (commitUp db m).log,
            r.version ≠ x.Version := by
          intro x hx r hrr
          simp only [commitUp, List.mem_append, List.mem_singleton] at hrr
          rcases hrr with hrr | hrr
          · exact hfresh x (List.mem_cons_of_mem _ hx) r hrr
          · subst hrr
            intro hcontra
            have hmx : m.Version = x.Version := hcontra
            apply hmhead
            rw [hmx]
            exact List.mem_map_of_mem Migration.Version hx
        obtain ⟨rep, msg, heq, hcase⟩ := upGo_fail env applied rest (commitUp db m)
          pre2 mk post hsplit2 (fun x hx => hok x (List.mem_cons_of_mem _ hx))
          hfail hfresh2 hndtail
        refine ⟨rep, msg, ?_, hcase⟩
        simp [upGo, hm, he, hrec, hc, heq, applyUpAll]

/-- Sequentially committing a list of rollbacks. -/
def applyDownAll (db : DBState) : List Migration → DBState
  | [] => db
  | m :: rest => applyDownAll (commitDown db m) rest

theorem applyDownAll_spec : ∀ (ms : List Migration) (db : DBState),
    applyDownAll db ms =
      ⟨db.schema ++ ms.map Migration.DownSQL,
        db.log.filter (fun r => decide (r.version ∉ ms.map Migration.Version)),
        db.clock + ms.length⟩
  | [], db => by simp [applyDownAll]
  | m :: rest, db => by
    simp only [applyDownAll, applyDownAll_spec rest, commitDown, List.map_cons,
      List.length_cons]
    rw [List.filter_filter]
    simp only [DBState.mk.injEq]
    refine ⟨by simp [List.append_assoc], ?_, by omega⟩
    apply List.filter_congr
    intro r _
    simp [List.mem_cons, not_or, Bool.and_comm]

/-- The loop of `migrateDown` when nothing fails: every applied migration
is rolled back in order, unapplied ones are skipped silently. -/
theorem downGo_success (env : Env) (applied : List Str) :
    ∀ (ms : List Migration) (db : DBState),
    (∀ m ∈ ms, m.Version ∈ applied →
      env.execFails m.DownSQL = none ∧ env.removeFails m.Version = none ∧
        env.commitFails m.Version = none) →
    downGo env applied db ms =
      ⟨applyDownAll db (ms.filter (fun m => decide (m.Version ∈ applied))),
        (ms.filter (fun m => decide (m.Version ∈ applied))).map Migration.DownSQL,
        [],
        (ms.filter (fun m => decide (m.Version ∈ applied))).map Migration.Version,
        none⟩
  | [], db, _ => by simp [downGo, applyDownAll]
  | m :: rest, db, hok => by
    by_cases hm : m.Version ∈ applied
    · obtain ⟨he, hr, hc⟩ := hok m (List.mem_cons_self _ _) hm
      have ih := downGo_success env applied rest (commitDown db m)
        (fun x hx => hok x (List.mem_cons_of_mem _ hx))
      simp [downGo, hm, he, hr, hc, ih, List.filter_cons, applyDownAll]
    · have ih := downGo_success env applied rest db
        (fun x hx => hok x (List.mem_cons_of_mem _ hx))
      simp [downGo, hm, ih, List.filter_cons]

theorem getApplied_emptyDB : getAppliedMigrations emptyDB = [] := by
  simp [getAppliedMigrations, upRowsByTime, emptyDB]

/-! ## Claim theorems -/

/-- Claim C1: during migrate up, if executing the SQL body or the log
write of the k-th pending migration fails, the run halts with an error
naming that migration's version; every pending migration before it is
fully committed (schema change plus log row together), the failing one is
rolled back leaving no log row and no schema change, and no migration
after it is attempted.  The k-th pending migration is presented as the
decomposition `pre ++ mk :: post` of the pending list. -/
theorem C1_up_halts_on_failure (env : Env) (db : DBState) (ms : List Migration)
    (pre : List Migration) (mk : Migration) (post : List Migration)
    (hwf : WFdb db)
    (hsplit : ms.filter
      (fun m => decide (m.Version ∉ getAppliedMigrations db)) = pre ++ mk :: post)
    (hok : ∀ m ∈ pre, env.execFails m.UpSQL = none ∧
      env.recordFails m.Version = none ∧ env.commitFails m.Version = none)
    (hfail : (∃ e, env.execFails mk.UpSQL = some e) ∨
      (env.execFails mk.UpSQL = none ∧ ∃ e, env.recordFails mk.Version = some e))
    (hnd : ((pre ++ [mk]).map Migration.Version).Nodup) :
    ∃ rep msg,
      migrateUp env db ms =
        ⟨⟨db.schema ++ pre.map Migration.UpSQL, db.log ++ logRowsFrom db.clock pre,
            db.clock + pre.length⟩,
          pre.map Migration.UpSQL ++ [mk.UpSQL], rep,
          pre.map Migration.Version ++ [mk.Version], some msg⟩ ∧
      ((∃ e, msg = "failed to execute migration ".data ++ mk.Version ++ ": ".data ++ e) ∨
        (∃ e, msg = "failed to record migration ".data ++ mk.Version ++ ": ".data ++ e)) := by
  have hfresh : ∀ m ∈ pre ++ [mk], ∀ r ∈ db.log, r.version ≠ m.Version := by
    intro m hm r hr hcontra
    have hmem : m ∈ ms.filter
        (fun m => decide (m.Version ∉ getAppliedMigrations db)) := by
      rw [hsplit]
      rcases List.mem_append.mp hm with h | h
      · exact List.mem_append.mpr (Or.inl h)
      · rcases List.mem_singleton.mp h with rfl
        exact List.mem_append.mpr (Or.inr (List.mem_cons_self _ _))
    have hnapp : m.Version ∉ getAppliedMigrations db := by
      simpa using (List.mem_filter.mp hmem).2
    exact hnapp (mem_getApplied.mpr ⟨r, hr, hwf r hr, hcontra⟩)
  obtain ⟨rep, msg, heq, hcase⟩ := upGo_fail env (getAppliedMigrations db) ms db
    pre mk post hsplit hok hfail hfresh hnd
  refine ⟨rep, msg, ?_, hcase⟩
  show upGo env (getAppliedMigrations db) db ms = _
  rw [heq, applyUpAll_spec]

/-- Failure-injecting environment for the C1 witness: executing the SQL
body `BAD` fails. -/
def envC1 : Env :=
  ⟨fun x => if x = "BAD".data then some "boom".data else none,
    fun _ => none, fun _ => none, fun _ => none⟩

def m1C1 : Migration := ⟨"20230101".data, "one".data, "A1".data, "R1".data⟩

def m2C1 : Migration := ⟨"20230102".data, "two".data, "BAD".data, "R2".data⟩

def m3C1 : Migration := ⟨"20230103".data, "three".data, "A3".data, "R3".data⟩

/-- Witness for C1: the spec's scenario of a SQL failure injected into the
second of three pending migrations. -/
theorem C1_up_halts_on_failure_witness :
    (WFdb emptyDB ∧
      [m1C1, m2C1, m3C1].filter
        (fun m => decide (m.Version ∉ getAppliedMigrations emptyDB)) =
        [m1C1] ++ m2C1 :: [m3C1] ∧
      (∃ e, envC1.execFails m2C1.UpSQL = some e) ∧
      (([m1C1] ++ [m2C1]).map Migration.Version).Nodup) ∧
    (∃ rep msg,
      migrateUp envC1 emptyDB [m1C1, m2C1, m3C1] =
        ⟨⟨emptyDB.schema ++ [m1C1].map Migration.UpSQL,
            emptyDB.log ++ logRowsFrom emptyDB.clock [m1C1],
            emptyDB.clock + [m1C1].length⟩,
          [m1C1].map Migration.UpSQL ++ [m2C1.UpSQL], rep,
          [m1C1].map Migration.Version ++ [m2C1.Version], some msg⟩ ∧
      ((∃ e, msg = "failed to execute migration ".data ++ m2C1.Version ++ ": ".data ++ e) ∨
        (∃ e, msg = "failed to record migration ".data ++ m2C1.Version ++ ": ".data ++ e))) :=
  ⟨⟨by simp [WFdb, emptyDB], by simp [getApplied_emptyDB], ⟨"boom".data, by decide⟩, by decide⟩,
    C1_up_halts_on_failure envC1 emptyDB [m1C1, m2C1, m3C1] [m1C1] m2C1 [m3C1]
      (by simp [WFdb, emptyDB]) (by simp [getApplied_emptyDB])
      (by decide) (Or.inl ⟨"boom".data, by decide⟩) (by decide)⟩

def mC2 : Migration := ⟨"1".data, "init".data, "CREATE".data, "DROP".data⟩

/-- Counterexample to claim C2: applying version 1, rolling it back, and
reapplying it leaves exactly ONE ledger row for that version, not three —
the rollback deletes the version's log entry instead of appending. -/
theorem C2_counterexample :
    ((migrateUp noFail
        (migrateDown noFail (migrateUp noFail emptyDB [mC2]).db [mC2]).db
        [mC2]).db.log.filter (fun r => decide (r.version = "1".data))).length = 1 ∧
    ((migrateUp noFail
        (migrateDown noFail (migrateUp noFail emptyDB [mC2]).db [mC2]).db
        [mC2]).db.log.filter (fun r => decide (r.version = "1".data))).length ≠ 3 := by
  constructor <;>
    simp [migrateUp, migrateDown, upGo, downGo, commitUp, commitDown, recordResult,
      noFail, getAppliedMigrations, upRowsByTime, sortDesc, emptyDB, mC2,
      List.mergeSort, List.merge]

theorem upGo_noFail_ok (x : Migration) :
    noFail.execFails x.UpSQL = none ∧ noFail.recordFails x.Version = none ∧
      noFail.commitFails x.Version = none :=
  ⟨rfl, rfl, rfl⟩

theorem downGo_noFail_ok (x : Migration) :
    noFail.execFails x.DownSQL = none ∧ noFail.removeFails x.Version = none ∧
      noFail.commitFails x.Version = none :=
  ⟨rfl, rfl, rfl⟩

/-- Claim C2 (amended): the ledger is not append-only — `migrate down`
deletes the version's row inside the rollback transaction.  Applying a
fresh migration yields one row for its version, rolling it back leaves
none, and reapplying yields one again (never three). -/
theorem C2_amended_rollback_deletes (m : Migration) (db : DBState)
    (hwf : WFdb db) (hfresh : ∀ r ∈ db.log, r.version ≠ m.Version) :
    (((migrateUp noFail db [m]).db.log.filter
        (fun r => decide (r.version = m.Version))).length = 1) ∧
    (((migrateDown noFail (migrateUp noFail db [m]).db [m]).db.log.filter
        (fun r => decide (r.version = m.Version))).length = 0) ∧
    (((migrateUp noFail
        (migrateDown noFail (migrateUp noFail db [m]).db [m]).db [m]).db.log.filter
        (fun r => decide (r.version = m.Version))).length = 1) := by
  have hpend : m.Version ∉ getAppliedMigrations db := by
    intro hmem
    obtain ⟨r, hr, _, hv⟩ := mem_getApplied.mp hmem
    exact hfresh r hr hv
  have hfilter : [m].filter
      (fun x => decide (x.Version ∉ getAppliedMigrations db)) = [m] := by
    simp [List.filter_cons, hpend]
  have h1 : migrateUp noFail db [m] =
      ⟨applyUpAll db [m], [m.UpSQL], [], [m.Version], none⟩ := by
    have := upGo_success noFail (getAppliedMigrations db) [m] db
      (fun x _ _ => upGo_noFail_ok x)
      (fun x hx _ r hr hc => by
        rcases List.mem_singleton.mp hx with rfl
        exact hfresh r hr hc)
      (by simp [List.filter_cons, hpend])
    show upGo noFail (getAppliedMigrations db) db [m] = _
    rw [this]
    simp [List.filter_cons, hpend]
  have hd1log : (migrateUp noFail db [m]).db.log =
      db.log ++ [⟨m.Version, m.Name, "up".data, db.clock⟩] := by
    rw [h1]
    simp [applyUpAll, commitUp]
  have hdbfresh : db.log.filter (fun r => decide (r.version = m.Version)) = [] := by
    rw [List.filter_eq_nil_iff]
    intro r hr
    simpa using hfresh r hr
  have hc1 : ((migrateUp noFail db [m]).db.log.filter
      (fun r => decide (r.version = m.Version))).length = 1 := by
    rw [hd1log, List.filter_append, hdbfresh]
    simp
  have happ1 : m.Version ∈ getAppliedMigrations (migrateUp noFail db [m]).db := by
      apply mem_getApplied.mpr
      exact ⟨⟨m.Version, m.Name, "up".data, db.clock⟩, by rw [hd1log]; simp, rfl, rfl⟩
  have hfilter2 : [m].filter (fun x =>
      decide (x.Version ∈ getAppliedMigrations (migrateUp noFail db [m]).db)) = [m] := by
    simp [List.filter_cons, happ1]
  have h2 : migrateDown noFail (migrateUp noFail db [m]).db [m] =
      ⟨applyDownAll (migrateUp noFail db [m]).db [m], [m.DownSQL], [], [m.Version],
        none⟩ := by
    have := downGo_success noFail
      (getAppliedMigrations (migrateUp noFail db [m]).db) [m]
      (migrateUp noFail db [m]).db (fun x _ _ => downGo_noFail_ok x)
    show downGo _ _ _ (sortDesc [m]) = _
    rw [sortDesc, List.mergeSort_singleton, this, hfilter2]
    simp
  have hd2log : (migrateDown noFail (migrateUp noFail db [m]).db [m]).db.log =
      db.log.filter (fun r => decide (¬ r.version ∈ [m.Version])) := by
    rw [h2]
    rw [applyDownAll_spec]
    show ((migrateUp noFail db [m]).db.log.filter _) = _
    rw [hd1log, List.filter_append]
    simp
  have hc2 : ((migrateDown noFail (migrateUp noFail db [m]).db [m]).db.log.filter
      (fun r => decide (r.version = m.Version))).length = 0 := by
    rw [hd2log, List.filter_filter, List.length_eq_zero, List.filter_eq_nil_iff]
    intro r _
    simp
  have hwf2 : WFdb (migrateDown noFail (migrateUp noFail db [m]).db [m]).db := by
    intro r hr
    rw [hd2log] at hr
    have hrmem := List.mem_filter.mp hr
    exact hwf r hrmem.1
  have hfresh2 : ∀ r ∈ (migrateDown noFail (migrateUp noFail db [m]).db [m]).db.log,
      r.version ≠ m.Version := by
    intro r hr
    rw [hd2log] at hr
    have hrmem := List.mem_filter.mp hr
    simpa using hrmem.2
  have hpend3 : m.Version ∉
      getAppliedMigrations (migrateDown noFail (migrateUp noFail db [m]).db [m]).db := by
    intro hmem
    obtain ⟨r, hr, _, hv⟩ := mem_getApplied.mp hmem
    exact hfresh2 r hr hv
  have hfilter3 : [m].filter (fun x => decide (x.Version ∉
      getAppliedMigrations (migrateDown noFail (migrateUp noFail db [m]).db [m]).db)) =
      [m] := by
    simp [List.filter_cons, hpend3]
  have h3 : migrateUp noFail (migrateDown noFail (migrateUp noFail db [m]).db [m]).db
      [m] = ⟨applyUpAll (migrateDown noFail (migrateUp noFail db [m]).db [m]).db [m],
        [m.UpSQL], [], [m.Version], none⟩ := by
    have := upGo_success noFail
      (getAppliedMigrations (migrateDown noFail (migrateUp noFail db [m]).db [m]).db)
      [m] (migrateDown noFail (migrateUp noFail db [m]).db [m]).db
      (fun x _ _ => upGo_noFail_ok x)
      (fun x hx _ r hr hc => by
        rcases List.mem_singleton.mp hx with rfl
        exact hfresh2 r hr hc)
      (by simp [List.filter_cons, hpend3])
    show upGo _ _ _ [m] = _
    rw [this]
    simp [List.filter_cons, hpend3]
  have hd3log :
      (migrateUp noFail (migrateDown noFail (migrateUp noFail db [m]).db [m]).db
        [m]).db.log =
      (migrateDown noFail (migrateUp noFail db [m]).db [m]).db.log ++
        [⟨m.Version, m.Name, "up".data,
          (migrateDown noFail (migrateUp noFail db [m]).db [m]).db.clock⟩] := by
    rw [h3]
    simp [applyUpAll, commitUp]
  have hrest : (migrateDown noFail (migrateUp noFail db [m]).db [m]).db.log.filter
      (fun r => decide (r.version = m.Version)) = [] := by
    rw [List.filter_eq_nil_iff]
    intro r hr
    simpa using hfresh2 r hr
  have hc3 : ((migrateUp noFail
      (migrateDown noFail (migrateUp noFail db [m]).db [m]).db [m]).db.log.filter
      (fun r => decide (r.version = m.Version))).length = 1 := by
    rw [hd3log, List.filter_append, hrest]
    simp
  exact ⟨hc1, hc2, hc3⟩

/-- Witness for the amended C2 at a concrete migration and the empty
database. -/
theorem C2_amended_rollback_deletes_witness :
    (WFdb emptyDB ∧ (∀ r ∈ emptyDB.log, r.version ≠ mC2.Version)) ∧
    ((((migrateUp noFail emptyDB [mC2]).db.log.filter
        (fun r => decide (r.version = mC2.Version))).length = 1) ∧
    (((migrateDown noFail (migrateUp noFail emptyDB [mC2]).db [mC2]).db.log.filter
        (fun r => decide (r.version = mC2.Version))).length = 0) ∧
    (((migrateUp noFail
        (migrateDown noFail (migrateUp noFail emptyDB [mC2]).db [mC2]).db
        [mC2]).db.log.filter
        (fun r => decide (r.version = mC2.Version))).length = 1)) :=
  ⟨⟨by simp [WFdb, emptyDB], by simp [emptyDB]⟩,
    C2_amended_rollback_deletes mC2 emptyDB (by simp [WFdb, emptyDB])
      (by simp [emptyDB])⟩

theorem recordResult_none {env : Env} {db : DBState} {v : Str}
    (h : recordResult env db v = none) : ∀ r ∈ db.log, r.version ≠ v := by
  intro r hr
  simp only [recordResult] at h
  cases hrf : env.recordFails v with
  | some e => simp [hrf] at h
  | none =>
    simp only [hrf] at h
    by_cases hany : (db.log.any fun r => decide (r.version = v)) = true
    · simp [hany] at h
    · intro hcontra
      exact hany (List.any_eq_true.mpr ⟨r, hr, by simpa using hcontra⟩)

/-- `migrate up` preserves distinctness of the ledger's versions: a row is
only inserted when the UNIQUE check admits it. -/
theorem upGo_unique (env : Env) (applied : List Str) :
    ∀ (ms : List Migration) (db : DBState),
    (db.log.map LogRow.version).Nodup →
    ((upGo env applied db ms).db.log.map LogRow.version).Nodup
  | [], db, h => by simpa [upGo] using h
  | m :: rest, db, h => by
    by_cases hm : m.Version ∈ applied
    · simpa [upGo, hm] using upGo_unique env applied rest db h
    · cases he : env.execFails m.UpSQL with
      | some e => simpa [upGo, hm, he] using h
      | none =>
        cases hr : recordResult env db m.Version with
        | some e => simpa [upGo, hm, he, hr] using h
        | none =>
          cases hc : env.commitFails m.Version with
          | some e => simpa [upGo, hm, he, hr, hc] using h
          | none =>
            have hfresh : m.Version ∉ db.log.map LogRow.version := by
              intro hmem
              obtain ⟨r, hrr, hv⟩ := List.mem_map.mp hmem
              exact recordResult_none hr r hrr hv
            have h2 : ((commitUp db m).log.map LogRow.version).Nodup := by
              simp only [commitUp, List.map_append, List.map_singleton,
                List.nodup_append, List.disjoint_singleton]
              exact ⟨h, List.nodup_singleton _, hfresh⟩
            simpa [upGo, hm, he, hr, hc] using
              upGo_unique env applied rest (commitUp db m) h2

/-- `migrate down` preserves distinctness of the ledger's versions
(deletion only removes rows). -/
theorem downGo_unique (env : Env) (applied : List Str) :
    ∀ (ms : List Migration) (db : DBState),
    (db.log.map LogRow.version).Nodup →
    ((downGo env applied db ms).db.log.map LogRow.version).Nodup
  | [], db, h => by simpa [downGo] using h
  | m :: rest, db, h => by
    by_cases hm : m.Version ∈ applied
    · cases he : env.execFails m.DownSQL with
      | some e => simpa [downGo, hm, he] using h
      | none =>
        cases hr : env.removeFails m.Version with
        | some e => simpa [downGo, hm, he, hr] using h
        | none =>
          cases hc : env.commitFails m.Version with
          | some e => simpa [downGo, hm, he, hr, hc] using h
          | none =>
            have h2 : ((commitDown db m).log.map LogRow.version).Nodup := by
              have hsub : (commitDown db m).log.Sublist db.log := by
                simp only [commitDown]
                exact List.filter_sublist _
              exact List.Nodup.sublist (List.Sublist.map _ hsub) h
            simpa [downGo, hm, he, hr, hc] using
              downGo_unique env applied rest (commitDown db m) h2
    · simpa [downGo, hm] using downGo_unique env applied rest db h

/-- One CLI invocation of the migration engine, with whatever migration
set it discovered and whatever failures its environment injects. -/
inductive Cmd where
  | up (env : Env) (ms : List Migration)
  | down (env : Env) (ms : List Migration)

/-- Running a sequence of migrate up / migrate down invocations, each
seeing the database state the previous one left. -/
def runCmds : DBState → List Cmd → DBState
  | db, [] => db
  | db, Cmd.up env ms :: rest => runCmds (migrateUp env db ms).db rest
  | db, Cmd.down env ms :: rest => runCmds (migrateDown env db ms).db rest

theorem runCmds_unique : ∀ (cmds : List Cmd) (db : DBState),
    (db.log.map LogRow.version).Nodup →
    ((runCmds db cmds).log.map LogRow.version).Nodup
  | [], db, h => h
  | Cmd.up env ms :: rest, db, h =>
    runCmds_unique rest _ (upGo_unique env (getAppliedMigrations db) ms db h)
  | Cmd.down env ms :: rest, db, h =>
    runCmds_unique rest _
      (downGo_unique env (getAppliedMigrations db) (sortDesc ms) db h)

/-- Claim C9: starting from the freshly created migration_log table, no
sequence of migrate up / migrate down runs — whatever migration sets they
discover and whatever failures their environments inject — ever leaves
two ledger rows with the same version. -/
theorem C9_at_most_one_row_per_version (cmds : List Cmd) :
    ((runCmds emptyDB cmds).log.map LogRow.version).Nodup :=
  runCmds_unique cmds emptyDB (by simp [emptyDB])

/-- Claim C6: `getAppliedMigrations` returns exactly the versions of the
ledger rows whose direction is `up`, ordered ascending by applied time,
and a version counts as applied iff some up-row for it exists. -/
theorem C6_applied_versions (db : DBState) :
    (upRowsByTime db).Pairwise (fun a b => a.appliedAt ≤ b.appliedAt) ∧
    (upRowsByTime db).Perm
      (db.log.filter (fun r => decide (r.direction = "up".data))) ∧
    getAppliedMigrations db = (upRowsByTime db).map (fun r => r.version) ∧
    ∀ v, (v ∈ getAppliedMigrations db ↔
      ∃ r ∈ db.log, r.direction = "up".data ∧ r.version = v) := by
  refine ⟨?_, List.mergeSort_perm _ _, rfl, fun v => mem_getApplied⟩
  have h := @List.sorted_mergeSort LogRow
    (fun a b => decide (a.appliedAt ≤ b.appliedAt))
    (fun a b c h1 h2 => by
      simp only [decide_eq_true_eq] at h1 h2 ⊢
      omega)
    (fun a b => by
      simp only [Bool.or_eq_true, decide_eq_true_eq]
      omega)
    (db.log.filter (fun r => decide (r.direction = "up".data)))
  exact h.imp (fun hx => by simpa using hx)

theorem wf_fresh {db : DBState} (hwf : WFdb db) :
    ∀ m : Migration, m.Version ∉ getAppliedMigrations db →
      ∀ r ∈ db.log, r.version ≠ m.Version := by
  intro m hm r hr hc
  exact hm (mem_getApplied.mpr ⟨r, hr, hwf r hr, hc⟩)

theorem sortAsc_sorted (ms : List Migration) :
    (sortAsc ms).Pairwise (fun a b => lexLe a.Version b.Version = true) :=
  @List.sorted_mergeSort Migration (fun a b => lexLe a.Version b.Version)
    (fun a b c h1 h2 => lexLe_trans _ _ _ h1 h2)
    (fun a b => lexLe_total _ _) ms

theorem sortDesc_sorted (ms : List Migration) :
    (sortDesc ms).Pairwise (fun a b => lexLe b.Version a.Version = true) :=
  @List.sorted_mergeSort Migration (fun a b => lexLe b.Version a.Version)
    (fun a b c h1 h2 => lexLe_trans _ _ _ h2 h1)
    (fun a b => lexLe_total _ _) ms

/-- Claim C3: with no failures injected, `migrate up` begins a transaction
for exactly the discovered migrations whose version is not applied, in
ascending version order, while applied ones are only reported; and
`migrate down` rolls back exactly those whose version is applied, in
descending version order, skipping the others silently. -/
theorem C3_plan (db : DBState) (ms : List Migration)
    (hwf : WFdb db)
    (hnd : (((sortAsc ms).filter
      (fun m => decide (m.Version ∉ getAppliedMigrations db))).map
        Migration.Version).Nodup) :
    (migrateUp noFail db (sortAsc ms)).attempted =
      ((sortAsc ms).filter
        (fun m => decide (m.Version ∉ getAppliedMigrations db))).map
          Migration.Version ∧
    (migrateUp noFail db (sortAsc ms)).reported =
      ((sortAsc ms).filter
        (fun m => decide (m.Version ∈ getAppliedMigrations db))).map
          Migration.Version ∧
    (migrateUp noFail db (sortAsc ms)).err = none ∧
    (migrateUp noFail db (sortAsc ms)).attempted.Pairwise
      (fun a b => lexLe a b = true) ∧
    (migrateDown noFail db ms).attempted =
      ((sortDesc ms).filter
        (fun m => decide (m.Version ∈ getAppliedMigrations db))).map
          Migration.Version ∧
    (migrateDown noFail db ms).reported = [] ∧
    (migrateDown noFail db ms).err = none ∧
    (migrateDown noFail db ms).attempted.Pairwise
      (fun a b => lexLe b a = true) := by
  have hup := upGo_success noFail (getAppliedMigrations db) (sortAsc ms) db
    (fun x _ _ => upGo_noFail_ok x)
    (fun x _ hx r hr hc => wf_fresh hwf x hx r hr hc)
    hnd
  have hdown := downGo_success noFail (getAppliedMigrations db) (sortDesc ms) db
    (fun x _ _ => downGo_noFail_ok x)
  have hupEq : migrateUp noFail db (sortAsc ms) = _ := hup
  have hdownEq : migrateDown noFail db ms = _ := hdown
  rw [hupEq, hdownEq]
  refine ⟨rfl, rfl, rfl, ?_, rfl, rfl, rfl, ?_⟩
  · exact List.pairwise_map.mpr
      (List.Pairwise.filter _ (sortAsc_sorted ms))
  · exact List.pairwise_map.mpr
      (List.Pairwise.filter _ (sortDesc_sorted ms))

def mA : Migration := ⟨"1".data, "a".data, "A".data, "RA".data⟩

def mB : Migration := ⟨"2".data, "b".data, "B".data, "RB".data⟩

/-- Database with version 2 already applied, for witnesses. -/
def dbB : DBState := ⟨["B".data], [⟨"2".data, "b".data, "up".data, 0⟩], 1⟩

/-- Witness for C3 at a discovered set `[mB, mA]` (out of order) against a
database where version 2 is applied and version 1 is pending. -/
theorem C3_plan_witness :
    (WFdb dbB ∧
      (((sortAsc [mB, mA]).filter
        (fun m => decide (m.Version ∉ getAppliedMigrations dbB))).map
          Migration.Version).Nodup) ∧
    ((migrateUp noFail dbB (sortAsc [mB, mA])).attempted =
      ((sortAsc [mB, mA]).filter
        (fun m => decide (m.Version ∉ getAppliedMigrations dbB))).map
          Migration.Version ∧
    (migrateUp noFail dbB (sortAsc [mB, mA])).reported =
      ((sortAsc [mB, mA]).filter
        (fun m => decide (m.Version ∈ getAppliedMigrations dbB))).map
          Migration.Version ∧
    (migrateUp noFail dbB (sortAsc [mB, mA])).err = none ∧
    (migrateUp noFail dbB (sortAsc [mB, mA])).attempted.Pairwise
      (fun a b => lexLe a b = true) ∧
    (migrateDown noFail dbB [mB, mA]).attempted =
      ((sortDesc [mB, mA]).filter
        (fun m => decide (m.Version ∈ getAppliedMigrations dbB))).map
          Migration.Version ∧
    (migrateDown noFail dbB [mB, mA]).reported = [] ∧
    (migrateDown noFail dbB [mB, mA]).err = none ∧
    (migrateDown noFail dbB [mB, mA]).attempted.Pairwise
      (fun a b => lexLe b a = true)) :=
  ⟨⟨by
      intro r hr
      simp only [dbB, List.mem_singleton] at hr
      subst hr
      rfl,
    by
      simp [sortAsc, List.mergeSort, List.merge, mA, mB, dbB,
        getAppliedMigrations, upRowsByTime, lexLe]⟩,
    C3_plan dbB [mB, mA]
      (by
        intro r hr
        simp only [dbB, List.mem_singleton] at hr
        subst hr
        rfl)
      (by
        simp [sortAsc, List.mergeSort, List.merge, mA, mB, dbB,
          getAppliedMigrations, upRowsByTime, lexLe])⟩

theorem upGo_all_applied (env : Env) (applied : List Str) :
    ∀ (ms : List Migration) (db : DBState),
    (∀ m ∈ ms, m.Version ∈ applied) →
    upGo env applied db ms = ⟨db, [], ms.map Migration.Version, [], none⟩
  | [], db, _ => by simp [upGo]
  | m :: rest, db, h => by
    have hm := h m (List.mem_cons_self _ _)
    simp [upGo, hm,
      upGo_all_applied env applied rest db (fun x hx => h x (List.mem_cons_of_mem _ hx))]

theorem mem_logRowsFrom {m : Migration} :
    ∀ {ms : List Migration} (c : Nat), m ∈ ms →
    ∃ r ∈ logRowsFrom c ms, r.direction = "up".data ∧ r.version = m.Version
  | [], _, h => absurd h (List.not_mem_nil m)
  | x :: rest, c, h => by
    rcases List.mem_cons.mp h with rfl | h
    · exact ⟨⟨m.Version, m.Name, "up".data, c⟩, List.mem_cons_self _ _, rfl, rfl⟩
    · obtain ⟨r, hr, hd, hv⟩ := mem_logRowsFrom (c + 1) h
      exact ⟨r, List.mem_cons_of_mem _ hr, hd, hv⟩

/-- Claim C4: with no failures, a successful `migrate up` run followed by
a second `migrate up` run over the same migration set performs zero SQL
executions on the second run: it begins no transaction, executes no up
body, inserts no log row, leaves the database untouched, reports every
migration as already applied, and succeeds. -/
theorem C4_idempotent (db : DBState) (ms : List Migration)
    (hwf : WFdb db)
    (hnd : ((ms.filter (fun m => decide (m.Version ∉ getAppliedMigrations db))).map
      Migration.Version).Nodup) :
    (migrateUp noFail db ms).err = none ∧
    migrateUp noFail (migrateUp noFail db ms).db ms =
      ⟨(migrateUp noFail db ms).db, [], ms.map Migration.Version, [], none⟩ := by
  have hup := upGo_success noFail (getAppliedMigrations db) ms db
    (fun x _ _ => upGo_noFail_ok x)
    (fun x _ hx r hr hc => wf_fresh hwf x hx r hr hc)
    hnd
  have h1 : migrateUp noFail db ms = _ := hup
  have hlog1 : (migrateUp noFail db ms).db.log =
      db.log ++ logRowsFrom db.clock
        (ms.filter (fun m => decide (m.Version ∉ getAppliedMigrations db))) := by
    rw [h1, applyUpAll_spec]
  have hall : ∀ m ∈ ms, m.Version ∈
      getAppliedMigrations (migrateUp noFail db ms).db := by
    intro m hm
    by_cases hp : m.Version ∈ getAppliedMigrations db
    · obtain ⟨r, hr, hd, hv⟩ := mem_getApplied.mp hp
      exact mem_getApplied.mpr ⟨r, by rw [hlog1]; exact List.mem_append_left _ hr, hd, hv⟩
    · have hmem : m ∈ ms.filter
          (fun m => decide (m.Version ∉ getAppliedMigrations db)) :=
        List.mem_filter.mpr ⟨hm, by simpa using hp⟩
      obtain ⟨r, hr, hd, hv⟩ := mem_logRowsFrom db.clock hmem
      exact mem_getApplied.mpr
        ⟨r, by rw [hlog1]; exact List.mem_append_right _ hr, hd, hv⟩
  constructor
  · rw [h1]
  · exact upGo_all_applied noFail _ ms (migrateUp noFail db ms).db hall

/-- Witness for C4: two fresh migrations against the empty database. -/
theorem C4_idempotent_witness :
    (WFdb emptyDB ∧
      (([mA, mB].filter
        (fun m => decide (m.Version ∉ getAppliedMigrations emptyDB))).map
          Migration.Version).Nodup) ∧
    ((migrateUp noFail emptyDB [mA, mB]).err = none ∧
      migrateUp noFail (migrateUp noFail emptyDB [mA, mB]).db [mA, mB] =
        ⟨(migrateUp noFail emptyDB [mA, mB]).db, [],
          [mA, mB].map Migration.Version, [], none⟩) :=
  ⟨⟨by simp [WFdb, emptyDB], by simp [getApplied_emptyDB, mA, mB]⟩,
    C4_idempotent emptyDB [mA, mB] (by simp [WFdb, emptyDB])
      (by simp [getApplied_emptyDB, mA, mB])⟩

def mA7 : Migration := ⟨"1".data, "a".data, "A".data, "RA".data⟩

def mB7 : Migration := ⟨"1".data, "b".data, "B".data, "RB".data⟩

/-- Counterexample to claim C7: two discovered migrations share version 1
(distinct names, so they are distinct map entries); the two map-iteration
orders are permutations of the same discovered set and the log is the
same (empty), yet the up runs execute different SQL sequences — sorting
by version alone does not remove the order dependence when versions tie. -/
theorem C7_counterexample :
    ([mA7, mB7] : List Migration).Perm [mB7, mA7] ∧
    (migrateUp noFail emptyDB (sortAsc [mA7, mB7])).execs ≠
      (migrateUp noFail emptyDB (sortAsc [mB7, mA7])).execs := by
  constructor
  · exact List.Perm.swap _ _ _
  · simp only [migrateUp, getApplied_emptyDB]
    simp [upGo, sortAsc, List.mergeSort, List.merge, lexLe, mA7, mB7, emptyDB,
      commitUp, recordResult, noFail]

/-- Claim C7 (amended): when the discovered versions are pairwise
distinct — as the data model requires of a migration set — the plan is
deterministic: any two orders of the same discovered set (directory-scan
or map-iteration orders) sort to the same ascending and descending lists
and therefore produce identical up and down runs against any log. -/
theorem C7_deterministic (l1 l2 : List Migration)
    (hperm : l1.Perm l2)
    (hnd : (l1.map Migration.Version).Nodup) :
    sortAsc l1 = sortAsc l2 ∧ sortDesc l1 = sortDesc l2 ∧
    (∀ env db, migrateUp env db (sortAsc l1) = migrateUp env db (sortAsc l2)) ∧
    (∀ env db, migrateDown env db l1 = migrateDown env db l2) := by
  have hinj : ∀ ⦃x⦄, x ∈ l1 → ∀ ⦃y⦄, y ∈ l1 → x.Version = y.Version → x = y :=
    List.inj_on_of_nodup_map hnd
  have hasc : sortAsc l1 = sortAsc l2 := by
    refine List.Perm.eq_of_sorted ?_ (sortAsc_sorted l1) (sortAsc_sorted l2) ?_
    · intro a b ha hb hab hba
      have hv : a.Version = b.Version := lexLe_antisymm _ _ hab hba
      have ha1 : a ∈ l1 := (List.mergeSort_perm l1 _).subset ha
      have hb1 : b ∈ l1 := hperm.symm.subset ((List.mergeSort_perm l2 _).subset hb)
      exact hinj ha1 hb1 hv
    · exact (List.mergeSort_perm l1 _).trans
        (hperm.trans (List.mergeSort_perm l2 _).symm)
  have hdesc : sortDesc l1 = sortDesc l2 := by
    refine List.Perm.eq_of_sorted ?_ (sortDesc_sorted l1) (sortDesc_sorted l2) ?_
    · intro a b ha hb hab hba
      have hv : a.Version = b.Version := lexLe_antisymm _ _ hba hab
      have ha1 : a ∈ l1 := (List.mergeSort_perm l1 _).subset ha
      have hb1 : b ∈ l1 := hperm.symm.subset ((List.mergeSort_perm l2 _).subset hb)
      exact hinj ha1 hb1 hv
    · exact (List.mergeSort_perm l1 _).trans
        (hperm.trans (List.mergeSort_perm l2 _).symm)
  refine ⟨hasc, hdesc, fun env db => by rw [hasc], fun env db => ?_⟩
  show downGo _ _ _ (sortDesc l1) = downGo _ _ _ (sortDesc l2)
  rw [hdesc]

/-- Witness for the amended C7: the same two distinct-version migrations
in both scan orders. -/
theorem C7_deterministic_witness :
    (([mB, mA] : List Migration).Perm [mA, mB] ∧
      (([mB, mA] : List Migration).map Migration.Version).Nodup) ∧
    (sortAsc [mB, mA] = sortAsc [mA, mB] ∧
      sortDesc [mB, mA] = sortDesc [mA, mB] ∧
      (∀ env db, migrateUp env db (sortAsc [mB, mA]) =
        migrateUp env db (sortAsc [mA, mB])) ∧
      (∀ env db, migrateDown env db [mB, mA] = migrateDown env db [mA, mB])) :=
  ⟨⟨List.Perm.swap _ _ _, by simp [mA, mB]⟩,
    C7_deterministic [mB, mA] [mA, mB] (List.Perm.swap _ _ _) (by simp [mA, mB])⟩

theorem padNat_length : ∀ (w n : Nat), (padNat w n).length = w
  | 0, _ => rfl
  | w + 1, n => by simp [padNat, padNat_length w]

theorem formatStamp_length (t : DateTime) : (formatStamp t).length = 14 := by
  simp [formatStamp, padNat_length]

/-- Counterexample to claim C8: the scaffolded files are not empty — the
up file's content is a comment header, not the empty string. -/
theorem C8_counterexample :
    (createMigration ⟨2023, 1, 2, 3, 4, 5⟩ "foo".data).upContent ≠ [] ∧
    (createMigration ⟨2023, 1, 2, 3, 4, 5⟩ "foo".data).downContent ≠ [] := by
  constructor <;> simp [createMigration, formatStamp, padNat, digitChar]

/-- Claim C8 (amended): `migrate create` scaffolds exactly two SQL files
whose contents are comment-only headers (each starts with the SQL comment
marker), named `{timestamp}_{name}.up.sql` and
`{timestamp}_{name}.down.sql`; both names share the identical fixed-width
14-character `YYYYMMDDhhmmss` timestamp and therefore sort adjacently as
plain strings. -/
theorem C8_create_files (t : DateTime) (name : Str) :
    (createMigration t name).upFile =
      formatStamp t ++ "_".data ++ name ++ ".up.sql".data ∧
    (createMigration t name).downFile =
      formatStamp t ++ "_".data ++ name ++ ".down.sql".data ∧
    (formatStamp t).length = 14 ∧
    (createMigration t name).upFile.take 14 = formatStamp t ∧
    (createMigration t name).downFile.take 14 = formatStamp t ∧
    (createMigration t name).upContent.take 3 = "-- ".data ∧
    (createMigration t name).downContent.take 3 = "-- ".data ∧
    (createMigration t name).upContent ≠ [] ∧
    (createMigration t name).downContent ≠ [] := by
  have hlen := formatStamp_length t
  have htake : ∀ rest2 : Str, (formatStamp t ++ rest2).take 14 = formatStamp t := by
    intro rest2
    rw [show (14 : Nat) = (formatStamp t).length from hlen.symm]
    exact List.take_left _ _
  refine ⟨rfl, rfl, hlen, ?_, ?_, ?_, ?_, ?_, ?_⟩
  · simpa [createMigration, List.append_assoc] using htake _
  · simpa [createMigration, List.append_assoc] using htake _
  · rfl
  · rfl
  · simp [createMigration]
  · simp [createMigration]

/-- Claim C10: for every id ≤ 0, GetUser, UpdateUser and DeleteUser
return the error `invalid user ID` and perform no repository or cache
access at all (the empty call list) — zero and negative ids are rejected
before any I/O and no state is changed. -/
theorem C10_invalid_id_guard (env : UCEnv) (id : Int) (name email : Str)
    (h : id ≤ 0) :
    GetUser env id = (.error "invalid user ID".data, []) ∧
    UpdateUser env id name email = (.error "invalid user ID".data, []) ∧
    DeleteUser env id = (.error "invalid user ID".data, []) := by
  refine ⟨?_, ?_, ?_⟩ <;> simp [GetUser, UpdateUser, DeleteUser, h]

/-- Concrete collaborator environment for the C10 witness. -/
def ucEnv0 : UCEnv :=
  ⟨fun _ => none, fun i => .ok ⟨i, [], []⟩, fun _ => .ok none,
    fun _ => none, fun _ => none⟩

/-- Witness for C10 at id = 0. -/
theorem C10_invalid_id_guard_witness :
    ((0 : Int) ≤ 0) ∧
    (GetUser ucEnv0 0 = (.error "invalid user ID".data, []) ∧
      UpdateUser ucEnv0 0 "x".data "y".data = (.error "invalid user ID".data, []) ∧
      DeleteUser ucEnv0 0 = (.error "invalid user ID".data, [])) :=
  ⟨by decide, C10_invalid_id_guard ucEnv0 0 "x".data "y".data (by decide)⟩

/-! ## loadMigrations lemmas (claim C5) -/

/-- Counterexample to claim C5: the file `1_test.xyz.sql` does not match
the `{version}_{name}.{up|down}.sql` convention (its direction segment is
`xyz`, neither `up` nor `down`), yet `loadMigrations` produces a
Migration record for it — with both bodies empty — instead of skipping
it. -/
theorem C5_counterexample :
    loadMigrationsFrom [("1_test.xyz.sql".data, "BODY".data)] =
      [⟨"1".data, "test".data, [], []⟩] ∧
    loadMigrationsFrom [("1_test.xyz.sql".data, "BODY".data)] ≠ [] := by
  constructor <;>
    simp [loadMigrationsFrom, sortFiles, sortAsc, collectFiles, collectStep,
      toMigrations, parseMigFileName, trimSuffix, splitOnChar, splitFirst,
      insertFile, setFile, sqlSuffix, List.mergeSort, List.merge]

theorem splitOnChar_not_mem {c : Char} : ∀ {l : Str}, c ∉ l → splitOnChar c l = [l]
  | [], _ => rfl
  | x :: rest, h => by
    have hx : ¬ x = c := fun hh => h (hh ▸ List.mem_cons_self _ _)
    have hr : c ∉ rest := fun hh => h (List.mem_cons_of_mem _ hh)
    simp [splitOnChar, splitOnChar_not_mem hr, hx]

theorem splitOnChar_append {c : Char} : ∀ {x : Str} (y : Str), c ∉ x →
    splitOnChar c (x ++ c :: y) = x :: splitOnChar c y
  | [], y, _ => by simp [splitOnChar]
  | a :: x, y, h => by
    have ha : ¬ a = c := fun hh => h (hh ▸ List.mem_cons_self _ _)
    have hx : c ∉ x := fun hh => h (List.mem_cons_of_mem _ hh)
    simp [List.cons_append, splitOnChar, splitOnChar_append y hx, ha]

theorem splitFirst_append {c : Char} : ∀ {x : Str} (y : Str), c ∉ x →
    splitFirst c (x ++ c :: y) = some (x, y)
  | [], y, _ => by simp [splitFirst]
  | a :: x, y, h => by
    have ha : ¬ a = c := fun hh => h (hh ▸ List.mem_cons_self _ _)
    have hx : c ∉ x := fun hh => h (List.mem_cons_of_mem _ hh)
    simp [List.cons_append, splitFirst, splitFirst_append y hx, ha]

theorem trimSuffix_append (suf x : Str) : trimSuffix suf (x ++ suf) = x := by
  have hlen : (x ++ suf).length - suf.length = x.length := by
    simp [List.length_append]
  simp only [trimSuffix, hlen]
  rw [if_pos]
  · exact List.take_left x suf
  · exact ⟨by simp [List.length_append], List.drop_left x suf⟩

theorem sqlSuffix_append (x : Str) : sqlSuffix (x ++ ".sql".data) = true := by
  simp only [sqlSuffix, decide_eq_true_eq]
  have h4 : (".sql".data : Str).length = 4 := rfl
  constructor
  · simp [List.length_append, h4]
  · have hd := List.drop_left x (".sql".data)
    have hlen : (x ++ ".sql".data).length - 4 = x.length := by
      simp [List.length_append, h4]
    rw [hlen]
    simpa [h4] using hd

/-- The filename shape produced by the naming convention. -/
def mkMigName (v n dir : Str) : Str :=
  v ++ "_".data ++ n ++ ".".data ++ dir ++ ".sql".data

theorem sqlSuffix_mkMigName (v n dir : Str) : sqlSuffix (mkMigName v n dir) = true := by
  have h : mkMigName v n dir =
      (v ++ "_".data ++ n ++ ".".data ++ dir) ++ ".sql".data := by
    simp [mkMigName, List.append_assoc]
  rw [h]
  exact sqlSuffix_append _

theorem parse_mkMigName {v n dir : Str} (hv1 : '.' ∉ v) (hv2 : '_' ∉ v)
    (hn1 : '.' ∉ n) (hd1 : '.' ∉ dir) :
    parseMigFileName (mkMigName v n dir) = some (v, n, dir) := by
  have hshape : mkMigName v n dir = ((v ++ '_' :: n) ++ '.' :: dir) ++ ".sql".data := by
    simp [mkMigName, List.append_assoc]
  have h1 : trimSuffix ".sql".data (mkMigName v n dir) = (v ++ '_' :: n) ++ '.' :: dir := by
    rw [hshape, trimSuffix_append]
  have hdot : '.' ∉ (v ++ '_' :: n) := by
    intro hmem
    rcases List.mem_append.mp hmem with h | h
    · exact hv1 h
    · rcases List.mem_cons.mp h with h | h
      · exact absurd h (by decide)
      · exact hn1 h
  have h2 : splitOnChar '.' (v ++ '_' :: (n ++ '.' :: dir)) =
      (v ++ '_' :: n) :: splitOnChar '.' dir := by
    have hx := @splitOnChar_append '.' (v ++ '_' :: n) dir hdot
    simpa [List.append_assoc] using hx
  have h3 : splitOnChar '.' dir = [dir] := splitOnChar_not_mem hd1
  have h4 : splitFirst '_' (v ++ '_' :: n) = some (v, n) := splitFirst_append n hv2
  simp [parseMigFileName, h1, h2, h3, h4]

theorem perm_pair {α : Type} {x y : α} {l : List α} (h : l.Perm [x, y]) :
    l = [x, y] ∨ l = [y, x] := by
  match l, h with
  | [], h => exact absurd h.length_eq (by simp)
  | [a], h => exact absurd h.length_eq (by simp)
  | a :: b :: c :: t, h => exact absurd h.length_eq (by simp)
  | [a, b], h =>
    have ha : a ∈ [x, y] := h.subset (List.mem_cons_self _ _)
    rcases List.mem_cons.mp ha with rfl | ha2
    · left
      have hb : b = y := by
        have := List.perm_singleton.mp h.cons_inv
        simpa using this
      rw [hb]
    · rcases List.mem_singleton.mp ha2 with rfl
      right
      have h2 : ([a, b] : List α).Perm [a, x] := h.trans (List.Perm.swap a x [])
      have hb : b = x := by
        have := List.perm_singleton.mp h2.cons_inv
        simpa using this
      rw [hb]

theorem foldl_collectStep_filter :
    ∀ (l : List (Str × Str)) (acc : List (Str × UpDown)),
    l.foldl collectStep acc =
      (l.filter (fun f => (parseMigFileName f.1).isSome)).foldl collectStep acc
  | [], _ => rfl
  | f :: rest, acc => by
    cases hp : parseMigFileName f.1 with
    | none =>
      have hstep : collectStep acc f = acc := by simp [collectStep, hp]
      simp [List.filter_cons, hp, hstep, foldl_collectStep_filter rest]
    | some x =>
      simp [List.filter_cons, hp, foldl_collectStep_filter rest]

theorem sortFiles_sorted (l : List (Str × Str)) :
    (sortFiles l).Pairwise (fun a b => lexLe a.1 b.1 = true) :=
  @List.sorted_mergeSort (Str × Str) (fun a b => lexLe a.1 b.1)
    (fun a b c h1 h2 => lexLe_trans _ _ _ h1 h2)
    (fun a b => lexLe_total _ _) l

/-- A stable sort commutes with filtering when the sort keys are
pairwise distinct. -/
theorem sortFiles_filter (p : Str × Str → Bool) (l : List (Str × Str))
    (hnd : (l.map Prod.fst).Nodup) :
    (sortFiles l).filter p = sortFiles (l.filter p) := by
  have hinj : ∀ ⦃x⦄, x ∈ l → ∀ ⦃y⦄, y ∈ l → x.1 = y.1 → x = y :=
    List.inj_on_of_nodup_map hnd
  refine List.Perm.eq_of_sorted ?_ (List.Pairwise.filter p (sortFiles_sorted l))
    (sortFiles_sorted (l.filter p)) ?_
  · intro a b ha hb hab hba
    have ha1 : a ∈ l := (List.mergeSort_perm l _).subset (List.mem_of_mem_filter ha)
    have hb1 : b ∈ l :=
      List.mem_of_mem_filter ((List.mergeSort_perm (l.filter p) _).subset hb)
    exact hinj ha1 hb1 (lexLe_antisymm _ _ hab hba)
  · exact (List.Perm.filter p (List.mergeSort_perm l _)).trans
      (List.mergeSort_perm (l.filter p) _).symm

theorem collect_pair_up_down {v n cu cd : Str}
    (hv1 : '.' ∉ v) (hv2 : '_' ∉ v) (hn1 : '.' ∉ n) :
    collectFiles [(mkMigName v n "up".data, cu), (mkMigName v n "down".data, cd)] =
      [(v ++ "_".data ++ n, ⟨cu, cd⟩)] ∧
    collectFiles [(mkMigName v n "down".data, cd), (mkMigName v n "up".data, cu)] =
      [(v ++ "_".data ++ n, ⟨cu, cd⟩)] := by
  have hu : parseMigFileName (mkMigName v n "up".data) = some (v, n, "up".data) :=
    parse_mkMigName hv1 hv2 hn1 (by decide)
  have hd : parseMigFileName (mkMigName v n "down".data) = some (v, n, "down".data) :=
    parse_mkMigName hv1 hv2 hn1 (by decide)
  constructor <;>
    simp [collectFiles, collectStep, hu, hd, insertFile, setFile]

theorem toMigrations_single {v n : Str} (hv2 : '_' ∉ v) (d : UpDown) :
    toMigrations [(v ++ "_".data ++ n, d)] = [⟨v, n, d.up, d.down⟩] := by
  have hkey : v ++ "_".data ++ n = v ++ '_' :: n := by
    simp [List.append_assoc]
  rw [hkey]
  simp [toMigrations, splitFirst_append n hv2]

theorem load_pair {v n cu cd : Str}
    (hv1 : '.' ∉ v) (hv2 : '_' ∉ v) (hn1 : '.' ∉ n) :
    loadMigrationsFrom
        [(mkMigName v n "up".data, cu), (mkMigName v n "down".data, cd)] =
      [⟨v, n, cu, cd⟩] := by
  unfold loadMigrationsFrom
  have hfil : [(mkMigName v n "up".data, cu), (mkMigName v n "down".data, cd)].filter
      (fun f => sqlSuffix f.1) =
      [(mkMigName v n "up".data, cu), (mkMigName v n "down".data, cd)] := by
    simp [List.filter_cons, sqlSuffix_mkMigName]
  rw [hfil]
  rcases perm_pair (List.mergeSort_perm
      [(mkMigName v n "up".data, cu), (mkMigName v n "down".data, cd)]
      (fun a b => lexLe a.1 b.1)) with h | h <;>
  · have hs : sortFiles
        [(mkMigName v n "up".data, cu), (mkMigName v n "down".data, cd)] = _ := h
    rw [hs]
    first
      | rw [(collect_pair_up_down hv1 hv2 hn1).1]
      | rw [(collect_pair_up_down hv1 hv2 hn1).2]
    rw [toMigrations_single hv2]
    simp [sortAsc]

theorem load_single_up {v n cu : Str}
    (hv1 : '.' ∉ v) (hv2 : '_' ∉ v) (hn1 : '.' ∉ n) :
    loadMigrationsFrom [(mkMigName v n "up".data, cu)] = [⟨v, n, cu, []⟩] := by
  unfold loadMigrationsFrom
  have hu : parseMigFileName (mkMigName v n "up".data) = some (v, n, "up".data) :=
    parse_mkMigName hv1 hv2 hn1 (by decide)
  have hfil : [(mkMigName v n "up".data, cu)].filter (fun f => sqlSuffix f.1) =
      [(mkMigName v n "up".data, cu)] := by
    simp [List.filter_cons, sqlSuffix_mkMigName]
  rw [hfil]
  have hs : sortFiles [(mkMigName v n "up".data, cu)] =
      [(mkMigName v n "up".data, cu)] := List.mergeSort_singleton _
  rw [hs]
  have hc : collectFiles [(mkMigName v n "up".data, cu)] =
      [(v ++ "_".data ++ n, ⟨cu, []⟩)] := by
    simp [collectFiles, collectStep, hu, insertFile, setFile]
  rw [hc, toMigrations_single hv2]
  simp [sortAsc]

theorem load_single_down {v n cd : Str}
    (hv1 : '.' ∉ v) (hv2 : '_' ∉ v) (hn1 : '.' ∉ n) :
    loadMigrationsFrom [(mkMigName v n "down".data, cd)] = [⟨v, n, [], cd⟩] := by
  unfold loadMigrationsFrom
  have hd : parseMigFileName (mkMigName v n "down".data) = some (v, n, "down".data) :=
    parse_mkMigName hv1 hv2 hn1 (by decide)
  have hfil : [(mkMigName v n "down".data, cd)].filter (fun f => sqlSuffix f.1) =
      [(mkMigName v n "down".data, cd)] := by
    simp [List.filter_cons, sqlSuffix_mkMigName]
  rw [hfil]
  have hs : sortFiles [(mkMigName v n "down".data, cd)] =
      [(mkMigName v n "down".data, cd)] := List.mergeSort_singleton _
  rw [hs]
  have hc : collectFiles [(mkMigName v n "down".data, cd)] =
      [(v ++ "_".data ++ n, ⟨[], cd⟩)] := by
    simp [collectFiles, collectStep, hd, insertFile, setFile]
  rw [hc, toMigrations_single hv2]
  simp [sortAsc]

theorem load_pattern_only (files : List (Str × Str))
    (hnd : (files.map Prod.fst).Nodup) :
    loadMigrationsFrom files =
      loadMigrationsFrom (files.filter
        (fun f => sqlSuffix f.1 && (parseMigFileName f.1).isSome)) := by
  unfold loadMigrationsFrom
  have hnd2 : ((files.filter (fun f => sqlSuffix f.1)).map Prod.fst).Nodup :=
    List.Nodup.sublist (List.Sublist.map _ (List.filter_sublist _)) hnd
  have hstep1 : collectFiles (sortFiles (files.filter (fun f => sqlSuffix f.1))) =
      collectFiles ((sortFiles (files.filter (fun f => sqlSuffix f.1))).filter
        (fun f => (parseMigFileName f.1).isSome)) :=
    foldl_collectStep_filter _ []
  have hstep2 : (sortFiles (files.filter (fun f => sqlSuffix f.1))).filter
        (fun f => (parseMigFileName f.1).isSome) =
      sortFiles ((files.filter (fun f => sqlSuffix f.1)).filter
        (fun f => (parseMigFileName f.1).isSome)) :=
    sortFiles_filter _ _ hnd2
  have hstep3 : (files.filter (fun f => sqlSuffix f.1)).filter
        (fun f => (parseMigFileName f.1).isSome) =
      files.filter (fun f => sqlSuffix f.1 && (parseMigFileName f.1).isSome) := by
    rw [List.filter_filter]
    apply List.filter_congr
    intro f _
    exact Bool.and_comm _ _
  have hstep4 : (files.filter
        (fun f => sqlSuffix f.1 && (parseMigFileName f.1).isSome)).filter
        (fun f => sqlSuffix f.1) =
      files.filter (fun f => sqlSuffix f.1 && (parseMigFileName f.1).isSome) := by
    rw [List.filter_filter]
    apply List.filter_congr
    intro f _
    cases hq : sqlSuffix f.1 <;> simp [hq]
  rw [hstep4, hstep1, hstep2, hstep3]

/-- Claim C5 (amended): loadMigrations produces one Migration per group of
files of shape `{version}_{name}.{segment}.sql` (exactly two dot-separated
parts after stripping `.sql`, an underscore in the first part); files not
of that shape, or not ending in `.sql`, are silently skipped and
contribute nothing; only the `up`/`down` segments contribute bodies, so
an up/down pair sharing `{version}_{name}` merges into one record and a
missing counterpart leaves that body empty — but a file with any OTHER
segment still creates a record (with both bodies empty) rather than being
skipped. -/
theorem C5_amended_load (files : List (Str × Str)) (v n cu cd : Str)
    (hnd : (files.map Prod.fst).Nodup)
    (hv1 : '.' ∉ v) (hv2 : '_' ∉ v) (hn1 : '.' ∉ n) :
    loadMigrationsFrom files =
      loadMigrationsFrom (files.filter
        (fun f => sqlSuffix f.1 && (parseMigFileName f.1).isSome)) ∧
    loadMigrationsFrom
        [(mkMigName v n "up".data, cu), (mkMigName v n "down".data, cd)] =
      [⟨v, n, cu, cd⟩] ∧
    loadMigrationsFrom [(mkMigName v n "up".data, cu)] = [⟨v, n, cu, []⟩] ∧
    loadMigrationsFrom [(mkMigName v n "down".data, cd)] = [⟨v, n, [], cd⟩] :=
  ⟨load_pattern_only files hnd, load_pair hv1 hv2 hn1,
    load_single_up hv1 hv2 hn1, load_single_down hv1 hv2 hn1⟩

/-- Witness for the amended C5 at a concrete directory listing. -/
theorem C5_amended_load_witness :
    (((([("1_a.up.sql".data, "U".data), ("junk.sql".data, "J".data)] :
        List (Str × Str)).map Prod.fst).Nodup) ∧
      ('.' : Char) ∉ "1".data ∧ ('_' : Char) ∉ "1".data ∧
      ('.' : Char) ∉ "a".data) ∧
    (loadMigrationsFrom [("1_a.up.sql".data, "U".data), ("junk.sql".data, "J".data)] =
      loadMigrationsFrom
        ([("1_a.up.sql".data, "U".data), ("junk.sql".data, "J".data)].filter
          (fun f => sqlSuffix f.1 && (parseMigFileName f.1).isSome)) ∧
    loadMigrationsFrom
        [(mkMigName "1".data "a".data "up".data, "U".data),
          (mkMigName "1".data "a".data "down".data, "D".data)] =
      [⟨"1".data, "a".data, "U".data, "D".data⟩] ∧
    loadMigrationsFrom [(mkMigName "1".data "a".data "up".data, "U".data)] =
      [⟨"1".data, "a".data, "U".data, []⟩] ∧
    loadMigrationsFrom [(mkMigName "1".data "a".data "down".data, "D".data)] =
      [⟨"1".data, "a".data, [], "D".data⟩]) :=
  ⟨⟨by decide, by decide, by decide, by decide⟩,
    C5_amended_load [("1_a.up.sql".data, "U".data), ("junk.sql".data, "J".data)]
      "1".data "a".data "U".data "D".data
      (by decide) (by decide) (by decide) (by decide)⟩

end SoleMig
